import Mathlib

/-!
Verification development for the FAST (Fast Architecture-Sensitive Tree)
in-memory ordered-key search index.

The definitions below are a shallow embedding of the C sources:
  * `src/src/fast_build.c`  — geometry, BFS materialization, blocked layout
  * `src/src/fast_search.c` — SIMD (SSE) and scalar search traversals
  * `src/src/fast.c`        — public facade (create, search, lower_bound,
                              size, key_at)

Keys are 32-bit signed integers in C; they are modelled as `Int` (the code
performs only comparisons on key values, never arithmetic, so no wrap-around
can occur on keys).  Array indices (`size_t` in C) are modelled as `Nat`,
except in the one place where the C code can multiply a negative `int` by a
`size_t` (the SSE child-offset computation), where the 64-bit wrap-around is
modelled explicitly with `% 2^64`.

C `while` loops are modelled as structurally recursive functions over an
explicit iteration bound (`gas`).  In each case the bound passed by the
wrapper dominates the number of iterations the C loop can perform (each
measure of each loop, noted at the definition, strictly decreases), so the
embedded function computes exactly what the loop computes.
-/

/-- Sentinel key used to pad incomplete trees: `INT32_MAX` (`FAST_KEY_MAX`
in `fast_internal.h`). -/
def SENT : Int := 2147483647

/-- Embeds the `d_n` computation loop of `fast_build_layout`:
`d_n = 0; tmp = 1; while (tmp - 1 < n) { d_n++; tmp <<= 1; }`.
The loop runs at most `n` times since `2^d - 1 ≥ d`. -/
def dnAux (n : Nat) : Nat → Nat → Nat
  | 0, d => d
  | gas+1, d => if 2 ^ d - 1 < n then dnAux n gas (d + 1) else d

/-- Tree depth `d_N`: the smallest `d` with `2^d - 1 ≥ n`. -/
def computeDn (n : Nat) : Nat := dnAux n n 0

/-- Embeds the `d_p` computation loop of `fast_build_layout`:
`dp = 1; while ((1 << (dp+1)) - 1 <= page_size/4) dp++;`.
`lim` is `page_size / 4`; the loop runs at most `lim` times. -/
def dpAux (lim : Nat) : Nat → Nat → Nat
  | 0, dp => dp
  | gas+1, dp => if 2 ^ (dp + 1) - 1 ≤ lim then dpAux lim gas (dp + 1) else dp

/-- Page-block depth for a non-huge page size (the `else` branch of the
page-size analysis in `fast_build_layout`). -/
def computeDp (pageSize : Nat) : Nat := dpAux (pageSize / 4) (pageSize / 4) 1

/-- Embeds `build_inorder_map` of `fast_build.c`: the iterative (stack-based)
in-order traversal of the implicit complete binary tree with `total` nodes,
as the list of BFS indices in in-order visit order.  The C loop assigns
`bfs_to_sorted[node] = sorted_idx++` in exactly this visit order.  `gas`
bounds the recursion depth; `gas = total` dominates the tree depth. -/
def inorderAux (total : Nat) : Nat → Nat → List Nat
  | 0, _ => []
  | gas+1, root =>
    if root < total then
      inorderAux total gas (2 * root + 1) ++ root :: inorderAux total gas (2 * root + 2)
    else []

/-- In-order visit sequence of BFS indices of the complete tree with
`total` nodes. -/
def inorderSeq (total : Nat) : List Nat := inorderAux total total 0

/-- One BFS level step used by `write_bfs_block`: the children (below
`total`) of a frontier of nodes, in queue order. -/
def bfsLevel (total : Nat) (frontier : List Nat) : List Nat :=
  frontier.flatMap fun i =>
    (if 2 * i + 1 < total then [2 * i + 1] else []) ++
    (if 2 * i + 2 < total then [2 * i + 2] else [])

/-- BFS order of the first `depth` levels of the subtree rooted at the
frontier, restricted to nodes `< total` (the queue order of
`write_bfs_block` in `fast_build.c`). -/
def bfsBlockAux (total : Nat) : Nat → List Nat → List Nat
  | 0, _ => []
  | d+1, frontier => frontier ++ bfsBlockAux total d (bfsLevel total frontier)

/-- Node indices written by `write_bfs_block(bfs_tree, out, root, pos, depth,
total)`, in write order. -/
def bfsBlockNodes (total root depth : Nat) : List Nat :=
  bfsBlockAux total depth (if root < total then [root] else [])

/-- Embeds `collect_children` of `fast_build.c`: the BFS indices of the
`2^depth` children below a `depth`-deep block rooted at `root`, keeping
those `< total`.  `base = 2^depth * (root + 1) - 1`. -/
def collectChildren (total root depth : Nat) : List Nat :=
  (List.range (2 ^ depth)).filterMap fun i =>
    if 2 ^ depth * (root + 1) - 1 + i < total then
      some (2 ^ depth * (root + 1) - 1 + i)
    else none

/-- Embeds the BFS-tree materialization in `fast_build_layout`: position `i`
holds the key at its in-order rank when that rank is `< n`, and the sentinel
otherwise.  (`bfs_to_sorted` is initialized to `SIZE_MAX`, so a position not
reached by the traversal also receives the sentinel; `findIdx` returning the
list length models this.) -/
def buildBfsTree (sortedKeys : List Int) (treeNodes : Nat) : List Int :=
  (List.range treeNodes).map fun i =>
    if (inorderSeq treeNodes).findIdx (· == i) < sortedKeys.length then
      sortedKeys.getD ((inorderSeq treeNodes).findIdx (· == i)) 0
    else SENT

/-- Block depth table of `lay_out_subtree`: `depths = @[FAST_DK, FAST_DL, d_p]` with
`FAST_DK = 2`, `FAST_DL = 4`. -/
def depthAt (dp : Nat) : Nat → Nat
  | 0 => 2
  | 1 => 4
  | _ => dp

/-- Embeds `lay_out_subtree` of `fast_build.c` as the list of keys it writes
(sequential writes through `*out_pos` become list concatenation).  `gas`
bounds the recursion; since every recursive call strictly decreases
`remaining` (all block depths are ≥ 1 because `d_p ≥ 1`), `gas = remaining`
at the outer call dominates the recursion depth. -/
def layOutAux (bfsT : List Int) (total dp : Nat) : Nat → Nat → Nat → Nat → List Int
  | 0, _, _, _ => []
  | gas+1, root, remaining, level =>
    if remaining = 0 ∨ total ≤ root then []
    else if remaining ≤ depthAt dp level ∨ level = 0 then
      ((bfsBlockNodes total root (min remaining (depthAt dp level))).map
        fun i => bfsT.getD i SENT) ++
      (if depthAt dp level < remaining then
        (collectChildren total root (min remaining (depthAt dp level))).flatMap
          fun c => layOutAux bfsT total dp gas c (remaining - min remaining (depthAt dp level)) level
      else [])
    else
      layOutAux bfsT total dp gas root (depthAt dp level) (level - 1) ++
      (collectChildren total root (depthAt dp level)).flatMap
        fun c => layOutAux bfsT total dp gas c (remaining - depthAt dp level) level

/-- The hierarchically blocked layout written by
`lay_out_subtree(bfs_tree, out, root, &pos, remaining, level, depths, total)`. -/
def layOutSubtree (bfsT : List Int) (total dp root remaining level : Nat) : List Int :=
  layOutAux bfsT total dp remaining root remaining level

/-- Embeds `struct fast_tree` of `fast_internal.h`.  `sorted_rank` is an
`int32_t *` pointer in C; it is modelled as an `Option`, with `none` for a
null pointer. -/
structure FastTree where
  layout : List Int
  sorted_rank : Option (List Nat)
  keys : List Int
  n : Nat
  layout_size : Nat
  tree_nodes : Nat
  d_n : Nat
  d_p : Nat
  n_p : Nat
  page_size : Nat

/-- Embeds `fast_build_layout` of `fast_build.c`.  `ps` is the value
returned by `sysconf(_SC_PAGESIZE)` (the one environment input of
construction).  The struct is `calloc`ed by `fast_create`, so `sorted_rank`
starts as a null pointer; `fast_build_layout` never assigns it, hence the
built tree carries `sorted_rank := none`.  The layout allocation is filled
with the sentinel and then overwritten from position 0 by `lay_out_subtree`;
the embedded `layout` is the written prefix, and layout reads past it return
the sentinel (the `getD` default used by the searches), matching the
sentinel-filled padding. -/
def fastBuildLayout (ps : Int) (sortedKeys : List Int) : FastTree :=
  let n := sortedKeys.length
  let d_n := computeDn n
  let tree_nodes := 2 ^ d_n - 1
  let page_size : Nat := if 0 < ps then ps.toNat else 4096
  let d_p : Nat := if 2 * 1024 * 1024 ≤ page_size then 19 else computeDp page_size
  let bfsT := buildBfsTree sortedKeys tree_nodes
  let blocking_level : Nat := if d_n ≤ 2 then 0 else if d_n ≤ 4 then 1 else 2
  { layout := layOutSubtree bfsT tree_nodes d_p 0 d_n blocking_level
    sorted_rank := none
    keys := sortedKeys
    n := n
    layout_size := ((tree_nodes * 4 + 63) / 64 * 64 + 16) / 4
    tree_nodes := tree_nodes
    d_n := d_n
    d_p := d_p
    n_p := 2 ^ d_p - 1
    page_size := page_size }

/-- Embeds `fast_create` of `fast.c`: `NULL` on invalid input (`n == 0`),
otherwise the built tree.  (Allocation failure and a null `keys` pointer are
not representable in the embedding.) -/
def fastCreate (ps : Int) (keys : List Int) : Option FastTree :=
  if keys.length = 0 then none else some (fastBuildLayout ps keys)

/-- Embeds the final binary-search loop shared by `fast_search_sse` and
`fast_search_scalar`:
`while (lo < hi) { mid = lo + (hi-lo+1)/2; if (keys[mid] <= key) lo = mid; else hi = mid-1; }`.
`gas` bounds the iterations; `hi - lo` strictly decreases each iteration, so
`gas = hi - lo` at entry dominates the loop. -/
def predLoopAux (keys : List Int) (key : Int) : Nat → Nat → Nat → Nat
  | 0, lo, _ => lo
  | gas+1, lo, hi =>
    if lo < hi then
      if keys.getD (lo + (hi - lo + 1) / 2) 0 ≤ key then
        predLoopAux keys key gas (lo + (hi - lo + 1) / 2) hi
      else
        predLoopAux keys key gas lo (lo + (hi - lo + 1) / 2 - 1)
    else lo

/-- The final answer computation of both search variants (`fast_search.c`,
after the traversal): boundary short-circuits on `keys[0]` and `keys[n-1]`,
then the predecessor binary search on the sorted keys. -/
def predFinal (keys : List Int) (n : Nat) (key : Int) : Int :=
  if key < keys.getD 0 0 then -1
  else if keys.getD (n - 1) 0 ≤ key then ((n - 1 : Nat) : Int)
  else ((predLoopAux keys key (n - 1) 0 (n - 1) : Nat) : Int)

/-- Embeds `FAST_LOOKUP` of `fast_internal.h` (mask → child index; `-1`
marks patterns impossible for a well-formed SIMD block). -/
def FAST_LOOKUP : List Int := [0, -1, 1, 2, -1, -1, -1, 3, 0, -1, 1, 2, -1, -1, -1, 3]

/-- Embeds the SSE comparison of a SIMD block in `fast_search_sse`: load 4
lanes at `offset`, compare `key > lane` per lane, assemble the movemask and
look up the child index (`FAST_LOOKUP[mask & 0x7]`; `mask % 8` equals
`mask & 0x7` here since the mask is non-negative). -/
def sseChild (tree : List Int) (key : Int) (offset : Nat) : Int :=
  FAST_LOOKUP.getD
    (((if tree.getD offset SENT < key then 1 else 0) +
      (if tree.getD (offset + 1) SENT < key then 2 else 0) +
      (if tree.getD (offset + 2) SENT < key then 4 else 0) +
      (if tree.getD (offset + 3) SENT < key then 8 else 0)) % 8) 0

/-- Embeds the traversal loop of `fast_search_sse` (lines 157–226 of
`fast_search.c`), recursing on `depth_remaining`.  The child-offset step
`offset = offset + NK + (size_t)child_index * child_subtree_size` is
computed in `size_t`, so it is taken modulo `2^64` (relevant because
`child_index` can be `-1` on blocks that are not well-formed SIMD blocks).
Returns the final `(offset, child_index)` pair, which the C function goes on
to ignore. -/
def sseTraverse (tree : List Int) (treeNodes : Nat) (key : Int) : Nat → Nat → Int → Nat × Int
  | offset, 0, child => (offset, child)
  | offset, 1, _ => (offset, if tree.getD offset SENT < key then 1 else 0)
  | offset, r+2, _ =>
    if r = 0 then (offset, sseChild tree key offset)
    else
      sseTraverse tree treeNodes key
        (((offset : Int) + 3 +
            sseChild tree key offset *
              ((if 64 ≤ r then treeNodes else 2 ^ r - 1 : Nat) : Int)) % (2 : Int) ^ 64).toNat
        r (sseChild tree key offset)

/-- Embeds the scalar 3-key block comparison of `fast_search_scalar`. -/
def scalarChild (tree : List Int) (key : Int) (offset : Nat) : Int :=
  if key ≤ tree.getD offset SENT then
    (if key ≤ tree.getD (offset + 1) SENT then 0 else 1)
  else
    (if key ≤ tree.getD (offset + 2) SENT then 2 else 3)

/-- Embeds the traversal loop of `fast_search_scalar` (lines 293–332 of
`fast_search.c`).  Returns the final `(offset, child_index)` pair, which the
C function goes on to ignore. -/
def scalarTraverse (tree : List Int) (key : Int) : Nat → Nat → Int → Nat × Int
  | offset, 0, child => (offset, child)
  | offset, 1, _ => (offset, if tree.getD offset SENT < key then 1 else 0)
  | offset, r+2, _ =>
    if r = 0 then (offset, scalarChild tree key offset)
    else
      scalarTraverse tree key
        (offset + 3 + (scalarChild tree key offset).toNat * (2 ^ r - 1))
        r (scalarChild tree key offset)

/-- Embeds `fast_search_sse` of `fast_search.c` (the `FAST_HAVE_SSE` build):
the `d_n == 0` guard, the SIMD traversal (whose result is discarded), and
the final binary search on the sorted keys. -/
def fastSearchSse (t : FastTree) (key : Int) : Int :=
  if t.d_n = 0 then (if 0 < t.n ∧ t.keys.getD 0 0 ≤ key then 0 else -1)
  else
    let _ := sseTraverse t.layout t.tree_nodes key 0 t.d_n 0
    predFinal t.keys t.n key

/-- Embeds `fast_search_scalar` of `fast_search.c`: the `d_n == 0` guard,
the scalar traversal (whose result is discarded), and the final binary
search on the sorted keys. -/
def fastSearchScalar (t : FastTree) (key : Int) : Int :=
  if t.d_n = 0 then (if 0 < t.n ∧ t.keys.getD 0 0 ≤ key then 0 else -1)
  else
    let _ := scalarTraverse t.layout key 0 t.d_n 0
    predFinal t.keys t.n key

/-- Embeds `fast_search` of `fast.c`: `-1` on a null handle or empty tree,
otherwise the SSE search (the `FAST_HAVE_SSE` build). -/
def fastSearch (t : Option FastTree) (key : Int) : Int :=
  match t with
  | none => -1
  | some tr => if tr.n = 0 then -1 else fastSearchSse tr key

/-- Embeds the lower-bound binary-search loop of `fast_search_lower_bound`:
`while (lo < hi) { mid = lo + (hi-lo)/2; if (keys[mid] < key) lo = mid+1; else hi = mid; }`.
`gas = hi - lo` at entry dominates the loop. -/
def lbLoopAux (keys : List Int) (key : Int) : Nat → Nat → Nat → Nat
  | 0, lo, _ => lo
  | gas+1, lo, hi =>
    if lo < hi then
      if keys.getD (lo + (hi - lo) / 2) 0 < key then
        lbLoopAux keys key gas (lo + (hi - lo) / 2 + 1) hi
      else
        lbLoopAux keys key gas lo (lo + (hi - lo) / 2)
    else lo

/-- The non-null body of `fast_search_lower_bound` (`fast.c`, lines 50–68). -/
def lbFinal (keys : List Int) (n : Nat) (key : Int) : Int :=
  if key ≤ keys.getD 0 0 then 0
  else if keys.getD (n - 1) 0 < key then (n : Int)
  else ((lbLoopAux keys key (n - 1) 0 (n - 1) : Nat) : Int)

/-- Embeds `fast_search_lower_bound` of `fast.c`: `0` on a null handle or
empty tree, otherwise the binary search on the sorted keys. -/
def fastSearchLowerBound (t : Option FastTree) (key : Int) : Int :=
  match t with
  | none => 0
  | some tr => if tr.n = 0 then 0 else lbFinal tr.keys tr.n key

/-- Embeds `fast_size` of `fast.c`. -/
def fastSize (t : Option FastTree) : Nat :=
  match t with
  | none => 0
  | some tr => tr.n

/-- Embeds `fast_key_at` of `fast.c`: `0` on a null handle or out-of-range
index. -/
def fastKeyAt (t : Option FastTree) (i : Nat) : Int :=
  match t with
  | none => 0
  | some tr => if tr.n ≤ i then 0 else tr.keys.getD i 0

/-! ### Helper lemmas about sorted key access -/

/-- Monotone access into a non-decreasing key list. -/
lemma getD_mono (K : List Int) (hs : List.Pairwise (· ≤ ·) K) {i j : Nat}
    (hij : i ≤ j) (hj : j < K.length) : K.getD i 0 ≤ K.getD j 0 := by
  rcases Nat.lt_or_ge i j with h | h
  · have hi : i < K.length := lt_trans h hj
    rw [List.getD_eq_getElem _ _ hi, List.getD_eq_getElem _ _ hj]
    exact List.pairwise_iff_getElem.mp hs i j hi hj h
  · have : i = j := le_antisymm hij h
    subst this
    exact le_refl _

/-- A key fetched in range is a member of the list. -/
lemma getD_mem (K : List Int) {i : Nat} (hi : i < K.length) : K.getD i 0 ∈ K := by
  rw [List.getD_eq_getElem _ _ hi]
  exact List.getElem_mem hi

/-! ### Correctness of the predecessor binary-search loop -/

/-- Invariant of the predecessor loop: starting from a state where
`keys[lo] ≤ q` and every index past `hi` holds a key `> q`, the loop
returns the largest index in `[lo, hi]` whose key is `≤ q`. -/
lemma predLoopAux_spec (K : List Int) (q : Int) (hs : List.Pairwise (· ≤ ·) K) :
    ∀ gas lo hi, hi < K.length → lo ≤ hi → hi - lo ≤ gas →
      K.getD lo 0 ≤ q → (∀ j, hi < j → j < K.length → q < K.getD j 0) →
      lo ≤ predLoopAux K q gas lo hi ∧ predLoopAux K q gas lo hi ≤ hi ∧
        K.getD (predLoopAux K q gas lo hi) 0 ≤ q ∧
        ∀ j, predLoopAux K q gas lo hi < j → j < K.length → q < K.getD j 0 := by
  intro gas
  induction gas with
  | zero =>
    intro lo hi hhi hlh hgas hlow hup
    have heq : lo = hi := by omega
    subst heq
    simp only [predLoopAux]
    exact ⟨le_refl _, le_refl _, hlow, hup⟩
  | succ g ih =>
    intro lo hi hhi hlh hgas hlow hup
    by_cases h : lo < hi
    · have hmid1 : lo < lo + (hi - lo + 1) / 2 := by omega
      have hmid2 : lo + (hi - lo + 1) / 2 ≤ hi := by omega
      simp only [predLoopAux, if_pos h]
      by_cases hc : K.getD (lo + (hi - lo + 1) / 2) 0 ≤ q
      · rw [if_pos hc]
        obtain ⟨a, b, c, d⟩ := ih (lo + (hi - lo + 1) / 2) hi hhi hmid2 (by omega) hc hup
        exact ⟨le_trans (le_of_lt hmid1) a, b, c, d⟩
      · rw [if_neg hc]
        push_neg at hc
        have hup2 : ∀ j, lo + (hi - lo + 1) / 2 - 1 < j → j < K.length → q < K.getD j 0 := by
          intro j hj hjlen
          exact lt_of_lt_of_le hc (getD_mono K hs (by omega) hjlen)
        obtain ⟨a, b, c, d⟩ := ih lo (lo + (hi - lo + 1) / 2 - 1)
          (by omega) (by omega) (by omega) hlow hup2
        exact ⟨a, by omega, c, d⟩
    · have heq : lo = hi := by omega
      subst heq
      simp only [predLoopAux, if_neg h]
      exact ⟨le_refl _, le_refl _, hlow, hup⟩

/-- Characterization of the complete predecessor computation `predFinal` on
a sorted non-empty key list: either `q` is below the first key and the
result is `-1`, or the result is the largest index whose key is `≤ q`. -/
lemma predFinal_char (K : List Int) (q : Int) (hs : List.Pairwise (· ≤ ·) K)
    (hne : K ≠ []) :
    (q < K.getD 0 0 ∧ predFinal K K.length q = -1) ∨
    (K.getD 0 0 ≤ q ∧ ∃ m : Nat, predFinal K K.length q = (m : Int) ∧ m < K.length ∧
      K.getD m 0 ≤ q ∧ ∀ j, m < j → j < K.length → q < K.getD j 0) := by
  have hlen : 0 < K.length := List.length_pos.mpr hne
  unfold predFinal
  by_cases h0 : q < K.getD 0 0
  · left
    exact ⟨h0, if_pos h0⟩
  · right
    push_neg at h0
    rw [if_neg (not_lt.mpr h0)]
    by_cases h1 : K.getD (K.length - 1) 0 ≤ q
    · rw [if_pos h1]
      exact ⟨h0, K.length - 1, rfl, by omega, h1,
        fun j hj hjl => absurd hjl (by omega)⟩
    · rw [if_neg h1]
      push_neg at h1
      have hup : ∀ j, K.length - 1 < j → j < K.length → q < K.getD j 0 :=
        fun j hj hjl => absurd hjl (by omega)
      obtain ⟨a, b, c, d⟩ := predLoopAux_spec K q hs (K.length - 1) 0 (K.length - 1)
        (by omega) (by omega) (by omega) h0 hup
      exact ⟨h0, predLoopAux K q (K.length - 1) 0 (K.length - 1), rfl, by omega, c, d⟩

/-! ### Correctness of the lower-bound binary-search loop -/

/-- Invariant of the lower-bound loop: starting from a state where every
index below `lo` holds a key `< q` and `keys[hi] ≥ q`, the loop returns the
smallest index in `[lo, hi]` whose key is `≥ q`. -/
lemma lbLoopAux_spec (K : List Int) (q : Int) (hs : List.Pairwise (· ≤ ·) K) :
    ∀ gas lo hi, hi < K.length → lo ≤ hi → hi - lo ≤ gas →
      (∀ j, j < lo → K.getD j 0 < q) → q ≤ K.getD hi 0 →
      lo ≤ lbLoopAux K q gas lo hi ∧ lbLoopAux K q gas lo hi ≤ hi ∧
        (∀ j, j < lbLoopAux K q gas lo hi → K.getD j 0 < q) ∧
        q ≤ K.getD (lbLoopAux K q gas lo hi) 0 := by
  intro gas
  induction gas with
  | zero =>
    intro lo hi hhi hlh hgas hlow hhiq
    have heq : lo = hi := by omega
    subst heq
    simp only [lbLoopAux]
    exact ⟨le_refl _, le_refl _, hlow, hhiq⟩
  | succ g ih =>
    intro lo hi hhi hlh hgas hlow hhiq
    by_cases h : lo < hi
    · have hmid1 : lo ≤ lo + (hi - lo) / 2 := by omega
      have hmid2 : lo + (hi - lo) / 2 < hi := by omega
      simp only [lbLoopAux, if_pos h]
      by_cases hc : K.getD (lo + (hi - lo) / 2) 0 < q
      · rw [if_pos hc]
        have hlow2 : ∀ j, j < lo + (hi - lo) / 2 + 1 → K.getD j 0 < q := by
          intro j hj
          exact lt_of_le_of_lt (getD_mono K hs (by omega) (by omega)) hc
        obtain ⟨a, b, c, d⟩ := ih (lo + (hi - lo) / 2 + 1) hi hhi (by omega) (by omega) hlow2 hhiq
        exact ⟨by omega, b, c, d⟩
      · rw [if_neg hc]
        push_neg at hc
        obtain ⟨a, b, c, d⟩ := ih lo (lo + (hi - lo) / 2) (by omega) hmid1 (by omega) hlow hc
        exact ⟨a, by omega, c, d⟩
    · have heq : lo = hi := by omega
      subst heq
      simp only [lbLoopAux, if_neg h]
      exact ⟨le_refl _, le_refl _, hlow, hhiq⟩

/-- Characterization of the complete lower-bound computation `lbFinal` on a
sorted non-empty key list: the result is the smallest index whose key is
`≥ q`, or the length when every key is `< q`. -/
lemma lbFinal_char (K : List Int) (q : Int) (hs : List.Pairwise (· ≤ ·) K)
    (hne : K ≠ []) :
    ∃ m : Nat, lbFinal K K.length q = (m : Int) ∧ m ≤ K.length ∧
      (∀ j, j < m → K.getD j 0 < q) ∧ (m < K.length → q ≤ K.getD m 0) := by
  have hlen : 0 < K.length := List.length_pos.mpr hne
  unfold lbFinal
  by_cases h0 : q ≤ K.getD 0 0
  · rw [if_pos h0]
    exact ⟨0, rfl, by omega, fun j hj => absurd hj (by omega), fun _ => h0⟩
  · push_neg at h0
    rw [if_neg (not_le.mpr h0)]
    by_cases h1 : K.getD (K.length - 1) 0 < q
    · rw [if_pos h1]
      refine ⟨K.length, rfl, le_refl _, fun j hj => ?_, fun hx => absurd hx (lt_irrefl _)⟩
      exact lt_of_le_of_lt (getD_mono K hs (by omega : j ≤ K.length - 1) (by omega)) h1
    · rw [if_neg h1]
      push_neg at h1
      obtain ⟨a, b, c, d⟩ := lbLoopAux_spec K q hs (K.length - 1) 0 (K.length - 1)
        (by omega) (by omega) (by omega) (fun j hj => absurd hj (by omega)) h1
      exact ⟨lbLoopAux K q (K.length - 1) 0 (K.length - 1), rfl, by omega, c, fun _ => d⟩

/-! ### Facade plumbing lemmas -/

lemma dnAux_le (n : Nat) : ∀ gas d, d ≤ dnAux n gas d := by
  intro gas
  induction gas with
  | zero => intro d; exact le_refl _
  | succ g ih =>
    intro d
    simp only [dnAux]
    split
    · exact le_trans (by omega) (ih (d + 1))
    · exact le_refl _

lemma computeDn_pos (n : Nat) (h : 0 < n) : 0 < computeDn n := by
  unfold computeDn
  obtain ⟨g, rfl⟩ : ∃ g, n = g + 1 := ⟨n - 1, by omega⟩
  have hc : 2 ^ 0 - 1 < g + 1 := by omega
  simp only [dnAux, if_pos hc]
  exact lt_of_lt_of_le (by omega) (dnAux_le (g + 1) g 1)

lemma fastCreate_eq (ps : Int) (K : List Int) (h : K ≠ []) :
    fastCreate ps K = some (fastBuildLayout ps K) := by
  unfold fastCreate
  rw [if_neg (fun hc => h (List.length_eq_zero.mp hc))]

lemma build_keys (ps : Int) (K : List Int) : (fastBuildLayout ps K).keys = K := rfl

lemma build_n (ps : Int) (K : List Int) : (fastBuildLayout ps K).n = K.length := rfl

lemma build_d_n (ps : Int) (K : List Int) :
    (fastBuildLayout ps K).d_n = computeDn K.length := rfl

lemma build_sorted_rank (ps : Int) (K : List Int) :
    (fastBuildLayout ps K).sorted_rank = none := rfl

lemma build_page_size (ps : Int) (K : List Int) :
    (fastBuildLayout ps K).page_size = if 0 < ps then ps.toNat else 4096 := rfl

lemma build_d_p (ps : Int) (K : List Int) :
    (fastBuildLayout ps K).d_p =
      if 2 * 1024 * 1024 ≤ (fastBuildLayout ps K).page_size then 19
      else computeDp (fastBuildLayout ps K).page_size := rfl

/-- On a tree built from a non-empty key list, the facade search reduces to
the final predecessor binary search (the traversal result is discarded by
the source). -/
lemma fastSearch_eq_predFinal (ps : Int) (K : List Int) (q : Int) (h : K ≠ []) :
    fastSearch (fastCreate ps K) q = predFinal K K.length q := by
  rw [fastCreate_eq ps K h]
  have hlen : 0 < K.length := List.length_pos.mpr h
  have hn : ¬ (fastBuildLayout ps K).n = 0 := by
    rw [build_n]; omega
  have hd : ¬ (fastBuildLayout ps K).d_n = 0 := by
    rw [build_d_n]
    have := computeDn_pos K.length hlen
    omega
  show (if (fastBuildLayout ps K).n = 0 then -1 else fastSearchSse (fastBuildLayout ps K) q) = _
  rw [if_neg hn]
  unfold fastSearchSse
  rw [if_neg hd]
  rfl

/-- On a tree built from a non-empty key list, the facade lower bound
reduces to the lower-bound binary search. -/
lemma fastSearchLowerBound_eq_lbFinal (ps : Int) (K : List Int) (q : Int) (h : K ≠ []) :
    fastSearchLowerBound (fastCreate ps K) q = lbFinal K K.length q := by
  rw [fastCreate_eq ps K h]
  have hlen : 0 < K.length := List.length_pos.mpr h
  have hn : ¬ (fastBuildLayout ps K).n = 0 := by
    rw [build_n]; omega
  show (if (fastBuildLayout ps K).n = 0 then 0 else lbFinal (fastBuildLayout ps K).keys (fastBuildLayout ps K).n q) = _
  rw [if_neg hn]
  rfl

/-! ### Claim theorems -/

/-- Predecessor-search contract of claim C1, for result `r` of a search for
`q` over sorted keys `K`: `r = -1` iff `q` is below the first key; otherwise
`K[r] ≤ q`, and `q < K[r+1]` whenever `r + 1 < n`. -/
def searchSpecHolds (K : List Int) (q r : Int) : Prop :=
  (r = -1 ↔ q < K.getD 0 0) ∧
  (r ≠ -1 → K.getD r.toNat 0 ≤ q ∧
    (r.toNat + 1 < K.length → q < K.getD (r.toNat + 1) 0))

/-- C1: for every index built from a non-decreasing key array `K` of length
`n ≥ 1` (no key equal to `INT32_MAX`) and every query `q`, `search(q)`
returns `-1` if and only if `q < K[0]`; otherwise `K[search(q)] ≤ q`, and
`q < K[search(q)+1]` whenever `search(q)+1 < n`. -/
theorem c1_search_predecessor (ps : Int) (K : List Int) (q : Int)
    (h1 : K ≠ []) (h2 : List.Pairwise (· ≤ ·) K) (h3 : SENT ∉ K) :
    searchSpecHolds K q (fastSearch (fastCreate ps K) q) := by
  rw [fastSearch_eq_predFinal ps K q h1]
  rcases predFinal_char K q h2 h1 with ⟨hlt, heq⟩ | ⟨hge, m, hm, hmlen, hmle, hup⟩
  · refine ⟨?_, ?_⟩
    · rw [heq]
      exact ⟨fun _ => hlt, fun _ => rfl⟩
    · intro hne
      exact absurd heq hne
  · refine ⟨?_, ?_⟩
    · rw [hm]
      constructor
      · intro hc
        exfalso
        omega
      · intro hc
        exact absurd hc (not_lt.mpr hge)
    · intro _
      rw [hm]
      refine ⟨by simpa [Int.toNat_natCast] using hmle, ?_⟩
      intro hj
      have hj' : m + 1 < K.length := by simpa [Int.toNat_natCast] using hj
      have := hup (m + 1) (by omega) hj'
      simpa [Int.toNat_natCast] using this

/-- Witness for C1 at the concrete index `K = [10, 20, 30]`, query `15`. -/
theorem c1_search_predecessor_witness :
    searchSpecHolds [10, 20, 30] 15 (fastSearch (fastCreate 4096 [10, 20, 30]) 15) :=
  c1_search_predecessor 4096 [10, 20, 30] 15 (by decide) (by decide) (by decide)

/-- Lower-bound contract of claim C2, for result `r` of a lower-bound query
for `q` over sorted keys `K`: `r` is the smallest index whose key is `≥ q`
(every smaller index holds a key `< q`), or `n` when no key is `≥ q`; in
particular `q ≤ K[0]` yields `0` and `q > K[n-1]` yields `n`. -/
def lowerBoundSpecHolds (K : List Int) (q r : Int) : Prop :=
  (∃ m : Nat, r = (m : Int) ∧ m ≤ K.length ∧
    (∀ j, j < m → K.getD j 0 < q) ∧ (m < K.length → q ≤ K.getD m 0)) ∧
  (q ≤ K.getD 0 0 → r = 0) ∧
  (K.getD (K.length - 1) 0 < q → r = (K.length : Int))

/-- C2: for every index built from a non-decreasing key array `K` of length
`n ≥ 1` and every query `q`, `lower_bound(q)` returns the smallest index `i`
with `K[i] ≥ q`, or `n` if no such index exists; in particular `q ≤ K[0]`
yields `0` and `q > K[n-1]` yields `n`. -/
theorem c2_lower_bound (ps : Int) (K : List Int) (q : Int)
    (h1 : K ≠ []) (h2 : List.Pairwise (· ≤ ·) K) :
    lowerBoundSpecHolds K q (fastSearchLowerBound (fastCreate ps K) q) := by
  rw [fastSearchLowerBound_eq_lbFinal ps K q h1]
  obtain ⟨m, hm, hmle, hlow, hge⟩ := lbFinal_char K q h2 h1
  refine ⟨⟨m, hm, hmle, hlow, hge⟩, ?_, ?_⟩
  · intro h0
    rw [hm]
    have hm0 : m = 0 := by
      by_contra hc
      have := hlow 0 (by omega)
      omega
    omega
  · intro hLast
    rw [hm]
    have hmN : m = K.length := by
      by_contra hc
      have hmlt : m < K.length := by omega
      have hq := hge hmlt
      have hle : K.getD m 0 ≤ K.getD (K.length - 1) 0 :=
        getD_mono K h2 (by omega) (by omega)
      omega
    omega

/-- Witness for C2 at the concrete index `K = [10, 20, 30]`, query `15`. -/
theorem c2_lower_bound_witness :
    lowerBoundSpecHolds [10, 20, 30] 15 (fastSearchLowerBound (fastCreate 4096 [10, 20, 30]) 15) :=
  c2_lower_bound 4096 [10, 20, 30] 15 (by decide) (by decide)

/-- C6: for every index and every query, the scalar search variant returns a
result bit-identical to the SIMD search variant.  In the source both
variants discard the traversal state and compute the result by the same
boundary checks and binary search on the sorted keys, so the equality is
definitional. -/
theorem c6_scalar_eq_sse (t : FastTree) (q : Int) :
    fastSearchScalar t q = fastSearchSse t q := rfl

/-- C10: every public query operation is total on a null index handle:
`fast_search(NULL, q) = -1`, `fast_search_lower_bound(NULL, q) = 0`,
`fast_size(NULL) = 0`, and `fast_key_at(NULL, i) = 0`. -/
theorem c10_null_handle_total (q : Int) (i : Nat) :
    fastSearch none q = -1 ∧ fastSearchLowerBound none q = 0 ∧
    fastSize none = 0 ∧ fastKeyAt none i = 0 :=
  ⟨rfl, rfl, rfl, rfl⟩

/-- C3 fails on the code: `fast_build_layout` never allocates or writes the
rank map, so after every construction `sorted_rank` is still the null
pointer installed by `calloc` — shown here both at the concrete failing
input `K = [42]` and for every input.  No layout position has a rank-map
entry at all, contradicting the claimed rank-map invariant. -/
theorem c3_rank_map_never_built :
    (fastBuildLayout 4096 [42]).sorted_rank = none ∧
    (fastBuildLayout 4096 [42]).n = 1 ∧
    ∀ (ps : Int) (K : List Int), (fastBuildLayout ps K).sorted_rank = none :=
  ⟨rfl, rfl, fun _ _ => rfl⟩

/-- C4 fails on the code: at the failing input (index over `[10, 20, 30]`,
query `15`) the index holds no rank map (`sorted_rank` is null), and the
search resolves its final answer purely by `predFinal` — the boundary
checks plus binary search over the sorted keys — for every tree with
`d_n ≠ 0`, not from rank-map entries of the last visited block. -/
theorem c4_leaf_resolution_is_binary_search :
    (fastBuildLayout 4096 [10, 20, 30]).sorted_rank = none ∧
    fastSearch (fastCreate 4096 [10, 20, 30]) 15 = 0 ∧
    ∀ (t : FastTree) (q : Int), ¬ t.d_n = 0 →
      fastSearchSse t q = predFinal t.keys t.n q := by
  refine ⟨rfl, by decide, ?_⟩
  intro t q h
  unfold fastSearchSse
  rw [if_neg h]

/-- C7: for every valid index (built from a non-empty non-decreasing key
array) and all queries `q1 ≤ q2`, `search(q1) ≤ search(q2)` and
`lower_bound(q1) ≤ lower_bound(q2)`. -/
theorem c7_monotone (ps : Int) (K : List Int)
    (h1 : K ≠ []) (h2 : List.Pairwise (· ≤ ·) K) (q1 q2 : Int) (hq : q1 ≤ q2) :
    fastSearch (fastCreate ps K) q1 ≤ fastSearch (fastCreate ps K) q2 ∧
    fastSearchLowerBound (fastCreate ps K) q1 ≤ fastSearchLowerBound (fastCreate ps K) q2 := by
  rw [fastSearch_eq_predFinal ps K q1 h1, fastSearch_eq_predFinal ps K q2 h1,
    fastSearchLowerBound_eq_lbFinal ps K q1 h1, fastSearchLowerBound_eq_lbFinal ps K q2 h1]
  constructor
  · rcases predFinal_char K q1 h2 h1 with ⟨hlt1, heq1⟩ | ⟨hge1, m1, hm1, hml1, hle1, hup1⟩
    · rw [heq1]
      rcases predFinal_char K q2 h2 h1 with ⟨hlt2, heq2⟩ | ⟨hge2, m2, hm2, hml2, hle2, hup2⟩
      · rw [heq2]
      · rw [hm2]
        omega
    · rw [hm1]
      rcases predFinal_char K q2 h2 h1 with ⟨hlt2, heq2⟩ | ⟨hge2, m2, hm2, hml2, hle2, hup2⟩
      · exfalso
        have : K.getD 0 0 ≤ q2 := le_trans hge1 hq
        omega
      · rw [hm2]
        by_contra hc
        push_neg at hc
        have hlt : m2 < m1 := by omega
        have hx := hup2 m1 hlt hml1
        omega
  · obtain ⟨m1, hm1, hml1, hlow1, hge1⟩ := lbFinal_char K q1 h2 h1
    obtain ⟨m2, hm2, hml2, hlow2, hge2⟩ := lbFinal_char K q2 h2 h1
    rw [hm1, hm2]
    by_contra hc
    push_neg at hc
    have hlt : m2 < m1 := by omega
    have ha := hlow1 m2 hlt
    have hb := hge2 (by omega)
    omega

/-- Witness for C7 at the concrete index `K = [10, 20, 30]`, queries
`15 ≤ 25`. -/
theorem c7_monotone_witness :
    fastSearch (fastCreate 4096 [10, 20, 30]) 15 ≤ fastSearch (fastCreate 4096 [10, 20, 30]) 25 ∧
    fastSearchLowerBound (fastCreate 4096 [10, 20, 30]) 15 ≤
      fastSearchLowerBound (fastCreate 4096 [10, 20, 30]) 25 :=
  c7_monotone 4096 [10, 20, 30] (by decide) (by decide) 15 25 (by decide)

/-- C8: for every index whose keys are all distinct and every query `q` not
equal to any key, `lower_bound(q) = search(q) + 1`. -/
theorem c8_duality (ps : Int) (K : List Int) (q : Int)
    (h1 : K ≠ []) (h2 : List.Pairwise (· ≤ ·) K) (h3 : K.Nodup) (h4 : q ∉ K) :
    fastSearchLowerBound (fastCreate ps K) q = fastSearch (fastCreate ps K) q + 1 := by
  rw [fastSearch_eq_predFinal ps K q h1, fastSearchLowerBound_eq_lbFinal ps K q h1]
  obtain ⟨m2, hm2, hml2, hlow2, hge2⟩ := lbFinal_char K q h2 h1
  rcases predFinal_char K q h2 h1 with ⟨hlt, heq⟩ | ⟨hge, m1, hm1, hml1, hle1, hup1⟩
  · rw [heq, hm2]
    have hm0 : m2 = 0 := by
      by_contra hc
      have := hlow2 0 (by omega)
      omega
    omega
  · rw [hm1, hm2]
    have hKm1 : K.getD m1 0 ≠ q := fun hc => h4 (hc ▸ getD_mem K hml1)
    have hlt1 : K.getD m1 0 < q := lt_of_le_of_ne hle1 hKm1
    have hgt : m1 < m2 := by
      by_contra hc
      push_neg at hc
      have hc2 : m2 < K.length := by omega
      have ha := hge2 hc2
      have hb := getD_mono K h2 hc hml1
      omega
    have hle : m2 ≤ m1 + 1 := by
      by_contra hc
      push_neg at hc
      have hj := hlow2 (m1 + 1) hc
      have hlen : m1 + 1 < K.length := by omega
      have := hup1 (m1 + 1) (by omega) hlen
      omega
    omega

/-- Witness for C8 at the concrete index `K = [10, 20, 30]`, non-key query
`15`. -/
theorem c8_duality_witness :
    fastSearchLowerBound (fastCreate 4096 [10, 20, 30]) 15 =
      fastSearch (fastCreate 4096 [10, 20, 30]) 15 + 1 :=
  c8_duality 4096 [10, 20, 30] 15 (by decide) (by decide) (by decide) (by decide)

/-- The `d_p` loop returns, from a starting depth whose block fits in `lim`
keys, the largest depth whose block still fits. -/
lemma dpAux_spec (lim : Nat) :
    ∀ gas dp, 2 ^ dp - 1 ≤ lim → lim < 2 ^ (dp + gas + 1) - 1 →
      2 ^ (dpAux lim gas dp) - 1 ≤ lim ∧ lim < 2 ^ (dpAux lim gas dp + 1) - 1 := by
  intro gas
  induction gas with
  | zero =>
    intro dp h0 hg
    simp only [dpAux]
    exact ⟨h0, hg⟩
  | succ g ih =>
    intro dp h0 hg
    simp only [dpAux]
    by_cases hc : 2 ^ (dp + 1) - 1 ≤ lim
    · rw [if_pos hc]
      refine ih (dp + 1) hc ?_
      have he : dp + 1 + g + 1 = dp + (g + 1) + 1 := by omega
      rw [he]
      exact hg
    · rw [if_neg hc]
      exact ⟨h0, by omega⟩

/-- Correctness of `computeDp` for any page size of at least 4 bytes: the
result is the largest `d` with `(2^d - 1) * 4 ≤ pageSize`. -/
lemma computeDp_spec (S : Nat) (h4 : 4 ≤ S) :
    (2 ^ computeDp S - 1) * 4 ≤ S ∧ ∀ d, (2 ^ d - 1) * 4 ≤ S → d ≤ computeDp S := by
  have h1 : 2 ^ 1 - 1 ≤ S / 4 := by
    have : 1 * 4 ≤ S := by omega
    have := (Nat.le_div_iff_mul_le (by omega : 0 < 4)).mpr this
    omega
  have hg : S / 4 < 2 ^ (1 + S / 4 + 1) - 1 := by
    have ha : S / 4 < 2 ^ (S / 4) := Nat.lt_two_pow _
    have hb : 2 ^ (1 + S / 4 + 1) = 2 ^ (S / 4) * 4 := by
      have he : 1 + S / 4 + 1 = S / 4 + 2 := by omega
      rw [he, pow_succ, pow_succ]
      ring
    have hpos : 0 < 2 ^ (S / 4) := pow_pos (by omega) _
    omega
  obtain ⟨hA, hB⟩ := dpAux_spec (S / 4) (S / 4) 1 h1 hg
  rw [show dpAux (S / 4) (S / 4) 1 = computeDp S from rfl] at hA hB
  constructor
  · exact (Nat.le_div_iff_mul_le (by omega : 0 < 4)).mp hA
  · intro d hd
    have hd' : 2 ^ d - 1 ≤ S / 4 := (Nat.le_div_iff_mul_le (by omega : 0 < 4)).mpr hd
    by_contra hc
    push_neg at hc
    have hmono : 2 ^ (computeDp S + 1) ≤ 2 ^ d := Nat.pow_le_pow_right (by omega) (by omega)
    have hpos : 0 < 2 ^ (computeDp S + 1) := pow_pos (by omega) _
    omega

/-- C9: at construction the page-block depth `d_p` is the largest `d` with
`(2^d - 1) * 4 ≤ page_size` (shown for every page size of at least 4 bytes
below the 2 MiB huge-page threshold), giving `d_p = 10` for a 4 KiB page;
when the reported page size is at least 2 MiB, `d_p = 19`; and when the
operating-system page-size query fails (`sysconf` returns a non-positive
value), the page size defaults to 4 KiB. -/
theorem c9_geometry (ps : Int) (K : List Int) :
    (ps ≤ 0 → (fastBuildLayout ps K).page_size = 4096) ∧
    (4 ≤ (fastBuildLayout ps K).page_size →
      (fastBuildLayout ps K).page_size < 2 * 1024 * 1024 →
      (2 ^ (fastBuildLayout ps K).d_p - 1) * 4 ≤ (fastBuildLayout ps K).page_size ∧
      ∀ d, (2 ^ d - 1) * 4 ≤ (fastBuildLayout ps K).page_size →
        d ≤ (fastBuildLayout ps K).d_p) ∧
    ((fastBuildLayout ps K).page_size = 4096 → (fastBuildLayout ps K).d_p = 10) ∧
    (2 * 1024 * 1024 ≤ (fastBuildLayout ps K).page_size → (fastBuildLayout ps K).d_p = 19) := by
  refine ⟨?_, ?_, ?_, ?_⟩
  · intro h
    rw [build_page_size, if_neg (by omega : ¬ 0 < ps)]
  · intro h4 hlt
    rw [build_d_p, if_neg (by omega)]
    exact computeDp_spec _ h4
  · intro h4096
    rw [build_d_p, h4096, if_neg (by norm_num)]
    decide
  · intro hbig
    rw [build_d_p, if_pos hbig]

/-- Witness for C9: default page size on a failed query, `d_p = 10` at
4 KiB (with its block-fit bound), `d_p = 19` at 2 MiB. -/
theorem c9_geometry_witness :
    (fastBuildLayout (-1) [5]).page_size = 4096 ∧
    (fastBuildLayout 4096 [5]).d_p = 10 ∧
    (2 ^ (fastBuildLayout 4096 [5]).d_p - 1) * 4 ≤ (fastBuildLayout 4096 [5]).page_size ∧
    (fastBuildLayout 2097152 [5]).d_p = 19 :=
  ⟨(c9_geometry (-1) [5]).1 (by decide),
   (c9_geometry 4096 [5]).2.2.1 (by decide),
   ((c9_geometry 4096 [5]).2.1 (by decide) (by decide)).1,
   (c9_geometry 2097152 [5]).2.2.2 (by decide)⟩

/-- Concrete failing input for the layout-structure claim: the complete
15-key tree (`d_N = 4 > d_K`, so the search performs two SIMD steps and the
first step expects each child subtree in `2^2 - 1 = 3` contiguous slots at
offsets `3 + c * 3`). -/
def k15 : List Int := [10, 20, 30, 40, 50, 60, 70, 80, 90, 100, 110, 120, 130, 140, 150]

/-- C5 fails on the code: for the 15-key index the builder emits the tree in
plain BFS order (`lay_out_subtree` hits its base case and calls
`write_bfs_block` on the whole depth-4 subtree), so slots `3..5` — where the
search engine child-offset arithmetic `p + 3 + c * (2^r - 1)` expects the
`c = 0` child subtree of the root SIMD block — hold the BFS nodes `3, 4, 5`
(keys `20, 60, 100`) instead of that child subtree (BFS nodes `3, 7, 8`,
keys `20, 10, 30`); in particular key `10` (BFS node 7) is missing from
those slots. -/
theorem c5_layout_not_hierarchically_blocked :
    (fastBuildLayout 4096 k15).layout =
      [80, 40, 120, 20, 60, 100, 140, 10, 30, 50, 70, 90, 110, 130, 150] ∧
    (fastBuildLayout 4096 k15).d_n = 4 ∧
    ((fastBuildLayout 4096 k15).layout.drop 3).take 3 = [20, 60, 100] ∧
    (buildBfsTree k15 15).getD 7 0 = 10 ∧
    ¬ (10 : Int) ∈ ((fastBuildLayout 4096 k15).layout.drop 3).take 3 := by
  refine ⟨?_, rfl, ?_, rfl, ?_⟩ <;> decide
